import Mathlib

/-!
Shallow embedding of the concept-linking pipeline in `link.py` (mowgli-uci).

External collaborators (`text_to_uri.english_filter`, `text_to_uri.replace_numbers`,
Python's `str.lower`, and the FAISS index search) are modelled as function
parameters: the claims under verification quantify over them.  Machine floats
are modelled as rationals; only their identity matters for the claims.
-/

namespace Mowgli

/-- Embeds the `Vocab` class of `link.py`: `idx_to_word` is the word list, and
`word_to_idx` is the dict comprehension `{word: idx for idx, word in enumerate(words)}`
(later duplicates overwrite earlier ones). -/
structure Vocab where
  idx_to_word : List String
deriving DecidableEq

/-- Embeds the dict comprehension building `word_to_idx`: the returned index is
the index of the last occurrence of `w`, or `none` when `w` is absent. -/
def Vocab.word_to_idx (v : Vocab) (w : String) : Option Nat :=
  v.idx_to_word.enum.foldl (fun acc p => if p.2 = w then some p.1 else acc) none

/-- Embeds `exhaustive_extraction` of `link.py` literally: two nested `for`
loops (`for n in range(1, ngram_length)`, `for i in range(num_tokens - n + 1)`)
appending to `out` whenever the joined, number-normalized window is a key of
`vocab.word_to_idx`.  `rn` stands for the external `replace_numbers`. -/
def exhaustive_extraction (rn : String → String) (tokens : List String)
    (vocab : Vocab) (ngram_length : Nat) : List String :=
  (List.range' 1 (ngram_length - 1)).foldl (fun out n =>
    (List.range (tokens.length + 1 - n)).foldl (fun out2 i =>
      let concept := rn (String.intercalate "_" ((tokens.drop i).take n))
      if (vocab.word_to_idx concept).isSome then out2 ++ [concept] else out2) out) []

/-- Embeds the inner `for n in range(ngram_length + 1, 0, -1)` loop of
`greedy_extraction`: `tryFrom rn vocab tokens k` tries window lengths
`k, k-1, ..., 1`; it returns the emitted concept (if any) together with the
number of tokens the cursor advances by (`n` on a match, `1` otherwise). -/
def tryFrom (rn : String → String) (vocab : Vocab) (tokens : List String) :
    Nat → Option String × Nat
  | 0 => (none, 1)
  | m + 1 =>
    let concept := rn (String.intercalate "_" (tokens.take (m + 1)))
    if (vocab.word_to_idx concept).isSome then (some concept, m + 1)
    else tryFrom rn vocab tokens m

/-- The cursor always advances by at least one token per iteration of the
`while` loop of `greedy_extraction`. -/
theorem tryFrom_snd_pos (rn : String → String) (vocab : Vocab)
    (tokens : List String) : ∀ k, 1 ≤ (tryFrom rn vocab tokens k).2 := by
  intro k
  induction k with
  | zero => simp [tryFrom]
  | succ m ih =>
    simp only [tryFrom]
    split
    · simp
    · exact ih

/-- Embeds the `while len(tokens) > 0` loop of `greedy_extraction`, with `out`
as the accumulator being appended to. -/
def greedy_loop (rn : String → String) (vocab : Vocab) (ngram_length : Nat)
    (tokens out : List String) : List String :=
  match tokens with
  | [] => out
  | t :: ts =>
    let r := tryFrom rn vocab (t :: ts) (ngram_length + 1)
    match r.1 with
    | some c => greedy_loop rn vocab ngram_length ((t :: ts).drop r.2) (out ++ [c])
    | none => greedy_loop rn vocab ngram_length ((t :: ts).drop r.2) out
termination_by tokens.length
decreasing_by
  all_goals
    have h1 := tryFrom_snd_pos rn vocab (t :: ts) (ngram_length + 1)
    simp only [List.length_drop, List.length_cons]
    omega

/-- Embeds `greedy_extraction` of `link.py`. -/
def greedy_extraction (rn : String → String) (tokens : List String)
    (vocab : Vocab) (ngram_length : Nat) : List String :=
  greedy_loop rn vocab ngram_length tokens []

theorem foldl_inner_filterMap (rn : String → String) (vocab : Vocab)
    (tokens : List String) (n : Nat) :
    ∀ (l : List Nat) (init : List String),
    l.foldl (fun out2 i =>
      let concept := rn (String.intercalate "_" ((tokens.drop i).take n))
      if (vocab.word_to_idx concept).isSome then out2 ++ [concept] else out2) init
    = init ++ l.filterMap (fun i =>
        let c := rn (String.intercalate "_" ((tokens.drop i).take n))
        if (vocab.word_to_idx c).isSome then some c else none) := by
  intro l
  induction l with
  | nil => intro init; simp
  | cons a l ih =>
    intro init
    simp only [List.foldl_cons, List.filterMap_cons, ih]
    by_cases h : (vocab.word_to_idx (rn (String.intercalate "_" ((tokens.drop a).take n)))).isSome
    · simp [h]
    · simp [h]

theorem foldl_outer_flatMap (f : Nat → List String) :
    ∀ (l : List Nat) (init : List String),
    l.foldl (fun out n => out ++ f n) init = init ++ l.flatMap f := by
  intro l
  induction l with
  | nil => intro init; simp
  | cons a l ih => intro init; simp [List.foldl_cons, ih]

/-- Declarative form of `exhaustive_extraction`: for every n from 1 up to
`ngram_length - 1` inclusive (in increasing order) and every start position i
(in increasing order), the joined+normalized window is emitted whenever it is a
vocabulary key; overlapping matches are not suppressed. -/
theorem exhaustive_eq_flatMap (rn : String → String) (tokens : List String)
    (vocab : Vocab) (ngram_length : Nat) :
    exhaustive_extraction rn tokens vocab ngram_length
    = (List.range' 1 (ngram_length - 1)).flatMap (fun n =>
        (List.range (tokens.length + 1 - n)).filterMap (fun i =>
          let c := rn (String.intercalate "_" ((tokens.drop i).take n))
          if (vocab.word_to_idx c).isSome then some c else none)) := by
  unfold exhaustive_extraction
  have h : (fun (out : List String) (n : Nat) =>
      (List.range (tokens.length + 1 - n)).foldl (fun out2 i =>
        let concept := rn (String.intercalate "_" ((tokens.drop i).take n))
        if (vocab.word_to_idx concept).isSome then out2 ++ [concept] else out2) out)
      = (fun (out : List String) (n : Nat) => out ++
        (List.range (tokens.length + 1 - n)).filterMap (fun i =>
          let c := rn (String.intercalate "_" ((tokens.drop i).take n))
          if (vocab.word_to_idx c).isSome then some c else none)) := by
    funext out n
    exact foldl_inner_filterMap rn vocab tokens n _ out
  rw [h, foldl_outer_flatMap]
  simp

/-- C1: for every token list, vocabulary, and ngram_length, exhaustive
extraction appends, for every n from 1 up to ngram_length-1 inclusive and for
every window of n consecutive tokens at every start position, the
underscore-joined and number-normalized window whenever it is a vocabulary key;
overlapping matches are not suppressed, and the output is ordered by increasing
n, then increasing start position (the order of the flattened list below). -/
theorem c1_exhaustive_extraction_windows (rn : String → String)
    (tokens : List String) (vocab : Vocab) (ngram_length : Nat) :
    exhaustive_extraction rn tokens vocab ngram_length
    = (List.range' 1 (ngram_length - 1)).flatMap (fun n =>
        (List.range (tokens.length + 1 - n)).filterMap (fun i =>
          let c := rn (String.intercalate "_" ((tokens.drop i).take n))
          if (vocab.word_to_idx c).isSome then some c else none)) :=
  exhaustive_eq_flatMap rn tokens vocab ngram_length

/-- C10: exhaustive extraction with ngram_length at most 1 returns the empty
list, and every emitted concept comes from a window of n consecutive tokens
with 1 ≤ n < ngram_length, so no window of exactly ngram_length tokens (three
tokens at the default ngram_length of 3) is ever matched. -/
theorem c10_exhaustive_offbyone (rn : String → String) (tokens : List String)
    (vocab : Vocab) (ngram_length : Nat) :
    (ngram_length ≤ 1 → exhaustive_extraction rn tokens vocab ngram_length = [])
    ∧ (∀ c ∈ exhaustive_extraction rn tokens vocab ngram_length,
        ∃ n i, 1 ≤ n ∧ n + 1 ≤ ngram_length ∧ i + n ≤ tokens.length ∧
          c = rn (String.intercalate "_" ((tokens.drop i).take n))) := by
  constructor
  · intro h
    rw [exhaustive_eq_flatMap]
    have h1 : ngram_length - 1 = 0 := by omega
    simp [h1]
  · intro c hc
    rw [exhaustive_eq_flatMap] at hc
    simp only [List.mem_flatMap, List.mem_filterMap, List.mem_range'_1,
      List.mem_range] at hc
    obtain ⟨n, ⟨hn1, hn2⟩, i, hi, hcc⟩ := hc
    by_cases hk : (vocab.word_to_idx
        (rn (String.intercalate "_" ((tokens.drop i).take n)))).isSome
    · simp only [hk, if_true, Option.some.injEq] at hcc
      exact ⟨n, i, hn1, by omega, by omega, hcc.symm⟩
    · simp [hk] at hcc

/-- Concrete check for C10: with ngram_length 1 the exhaustive strategy emits
nothing even when the single token is in the vocabulary. -/
theorem c10_exhaustive_offbyone_witness :
    exhaustive_extraction id ["dog"] ⟨["dog"]⟩ 1 = [] :=
  (c10_exhaustive_offbyone id ["dog"] ⟨["dog"]⟩ 1).1 (by decide)

/-- The membership test `concept in vocab.word_to_idx` performed by
`greedy_extraction` on the prefix window of length n. -/
def windowMatch (rn : String → String) (vocab : Vocab) (tokens : List String)
    (n : Nat) : Bool :=
  (vocab.word_to_idx (rn (String.intercalate "_" (tokens.take n)))).isSome

theorem tryFrom_succ (rn : String → String) (vocab : Vocab)
    (tokens : List String) (m : Nat) :
    tryFrom rn vocab tokens (m + 1)
    = if windowMatch rn vocab tokens (m + 1)
      then (some (rn (String.intercalate "_" (tokens.take (m + 1)))), m + 1)
      else tryFrom rn vocab tokens m := rfl

/-- Characterization of the descending-length search of `greedy_extraction`:
on a match it returns the concept of the longest matching window and advances
past it; with no match at all it advances by exactly one token. -/
theorem tryFrom_spec (rn : String → String) (vocab : Vocab)
    (tokens : List String) : ∀ k : Nat,
    (∀ c n, tryFrom rn vocab tokens k = (some c, n) →
      1 ≤ n ∧ n ≤ k ∧ windowMatch rn vocab tokens n = true ∧
      c = rn (String.intercalate "_" (tokens.take n)) ∧
      ∀ m, n < m → m ≤ k → windowMatch rn vocab tokens m = false)
    ∧ (∀ n, tryFrom rn vocab tokens k = (none, n) →
      n = 1 ∧ ∀ m, 1 ≤ m → m ≤ k → windowMatch rn vocab tokens m = false) := by
  intro k
  induction k with
  | zero =>
    constructor
    · intro c n h
      simp [tryFrom] at h
    · intro n h
      simp only [tryFrom, Prod.mk.injEq] at h
      exact ⟨h.2.symm, fun m hm1 hm2 => absurd hm2 (by omega)⟩
  | succ j ih =>
    rw [tryFrom_succ]
    by_cases hw : windowMatch rn vocab tokens (j + 1) = true
    · simp only [hw, if_true]
      constructor
      · intro c n h
        simp only [Prod.mk.injEq, Option.some.injEq] at h
        refine ⟨by omega, by omega, ?_, ?_, ?_⟩
        · rw [← h.2]; exact hw
        · rw [← h.2]; exact h.1.symm
        · intro m hm1 hm2
          omega
      · intro n h
        simp at h
    · simp only [hw, if_false]
      have hw' : windowMatch rn vocab tokens (j + 1) = false := by
        simpa using hw
      constructor
      · intro c n h
        obtain ⟨h1, h2, h3, h4, h5⟩ := ih.1 c n h
        refine ⟨h1, by omega, h3, h4, ?_⟩
        intro m hm1 hm2
        rcases Nat.lt_or_ge m (j + 1) with hlt | hge
        · exact h5 m hm1 (by omega)
        · have : m = j + 1 := by omega
          rw [this]; exact hw'
      · intro n h
        obtain ⟨h1, h2⟩ := ih.2 n h
        refine ⟨h1, ?_⟩
        intro m hm1 hm2
        rcases Nat.lt_or_ge m (j + 1) with hlt | hge
        · exact h2 m hm1 (by omega)
        · have : m = j + 1 := by omega
          rw [this]; exact hw'

theorem greedy_loop_nil (rn : String → String) (vocab : Vocab)
    (ngram_length : Nat) (out : List String) :
    greedy_loop rn vocab ngram_length [] out = out := by
  rw [greedy_loop]

theorem greedy_loop_cons (rn : String → String) (vocab : Vocab)
    (ngram_length : Nat) (t : String) (ts out : List String) :
    greedy_loop rn vocab ngram_length (t :: ts) out
    = match (tryFrom rn vocab (t :: ts) (ngram_length + 1)).1 with
      | some c => greedy_loop rn vocab ngram_length
          ((t :: ts).drop (tryFrom rn vocab (t :: ts) (ngram_length + 1)).2) (out ++ [c])
      | none => greedy_loop rn vocab ngram_length
          ((t :: ts).drop (tryFrom rn vocab (t :: ts) (ngram_length + 1)).2) out := by
  rw [greedy_loop]

/-- The accumulator of `greedy_loop` is only ever appended to. -/
theorem greedy_loop_out (rn : String → String) (vocab : Vocab)
    (ngram_length : Nat) : ∀ (fuel : Nat) (ts out : List String),
    ts.length ≤ fuel →
    greedy_loop rn vocab ngram_length ts out
    = out ++ greedy_loop rn vocab ngram_length ts [] := by
  intro fuel
  induction fuel with
  | zero =>
    intro ts out h
    have hts : ts = [] := by
      cases ts with
      | nil => rfl
      | cons a b => simp at h
    subst hts
    simp [greedy_loop_nil]
  | succ j ih =>
    intro ts out h
    cases ts with
    | nil => simp [greedy_loop_nil]
    | cons t ts' =>
      rw [greedy_loop_cons, greedy_loop_cons]
      have hpos := tryFrom_snd_pos rn vocab (t :: ts') (ngram_length + 1)
      have hlen : ((t :: ts').drop
          (tryFrom rn vocab (t :: ts') (ngram_length + 1)).2).length ≤ j := by
        simp only [List.length_drop, List.length_cons]
        simp only [List.length_cons] at h
        omega
      cases hm : (tryFrom rn vocab (t :: ts') (ngram_length + 1)).1 with
      | none => simp only; exact ih _ out hlen
      | some c =>
        simp only
        rw [ih _ (out ++ [c]) hlen, ih _ ([] ++ [c]) hlen]
        simp

/-- C2: greedy extraction maintains a cursor from the front; at each step it
tries window lengths from ngram_length+1 down to 1 and emits the first (i.e.
longest) underscore-joined, number-normalized window that is a vocabulary key,
advancing the cursor past that window; if no length matches, the cursor
advances by exactly one token and nothing is emitted, until the sequence is
exhausted. -/
theorem c2_greedy_extraction_step (rn : String → String) (tokens : List String)
    (vocab : Vocab) (ngram_length : Nat) :
    greedy_extraction rn [] vocab ngram_length = []
    ∧ (tokens ≠ [] →
      (∃ n, 1 ≤ n ∧ n ≤ ngram_length + 1 ∧ windowMatch rn vocab tokens n = true
        ∧ (∀ m, n < m → m ≤ ngram_length + 1 → windowMatch rn vocab tokens m = false)
        ∧ greedy_extraction rn tokens vocab ngram_length
            = rn (String.intercalate "_" (tokens.take n))
              :: greedy_extraction rn (tokens.drop n) vocab ngram_length)
      ∨ ((∀ m, 1 ≤ m → m ≤ ngram_length + 1 → windowMatch rn vocab tokens m = false)
        ∧ greedy_extraction rn tokens vocab ngram_length
            = greedy_extraction rn (tokens.drop 1) vocab ngram_length)) := by
  constructor
  · exact greedy_loop_nil rn vocab ngram_length []
  · intro hne
    cases htk : tokens with
    | nil => exact absurd htk hne
    | cons t ts =>
      unfold greedy_extraction
      rw [greedy_loop_cons]
      cases hm : tryFrom rn vocab (t :: ts) (ngram_length + 1) with
      | mk o adv =>
        cases o with
        | some c =>
          left
          obtain ⟨h1, h2, h3, h4, h5⟩ :=
            (tryFrom_spec rn vocab (t :: ts) (ngram_length + 1)).1 c adv hm
          refine ⟨adv, h1, h2, h3, h5, ?_⟩
          dsimp only
          rw [greedy_loop_out rn vocab ngram_length
            ((t :: ts).drop adv).length _ _ (le_refl _)]
          simp [h4]
        | none =>
          right
          obtain ⟨h1, h2⟩ :=
            (tryFrom_spec rn vocab (t :: ts) (ngram_length + 1)).2 adv hm
          refine ⟨h2, ?_⟩
          dsimp only
          subst h1
          rfl

/-- Concrete check for C2 at tokens ["new", "york"], vocabulary
containing only "new_york", ngram_length 1. -/
theorem c2_greedy_extraction_step_witness :
    ((["new", "york"] : List String) ≠ [])
    ∧ ((∃ n, 1 ≤ n ∧ n ≤ 1 + 1 ∧ windowMatch id ⟨["new_york"]⟩ ["new", "york"] n = true
        ∧ (∀ m, n < m → m ≤ 1 + 1 → windowMatch id ⟨["new_york"]⟩ ["new", "york"] m = false)
        ∧ greedy_extraction id ["new", "york"] ⟨["new_york"]⟩ 1
            = id (String.intercalate "_" ((["new", "york"] : List String).take n))
              :: greedy_extraction id ((["new", "york"] : List String).drop n) ⟨["new_york"]⟩ 1)
      ∨ ((∀ m, 1 ≤ m → m ≤ 1 + 1 → windowMatch id ⟨["new_york"]⟩ ["new", "york"] m = false)
        ∧ greedy_extraction id ["new", "york"] ⟨["new_york"]⟩ 1
            = greedy_extraction id ((["new", "york"] : List String).drop 1) ⟨["new_york"]⟩ 1)) :=
  ⟨by decide,
   (c2_greedy_extraction_step id ["new", "york"] ⟨["new_york"]⟩ 1).2 (by decide)⟩

/-- Instrumented variant of `greedy_loop` recording, for each emitted concept,
the pair (absolute start position, window length used for the cursor advance).
It follows exactly the same recursion as `greedy_loop`. -/
def greedy_windows (rn : String → String) (vocab : Vocab) (ngram_length : Nat)
    (tokens : List String) (pos : Nat) : List (Nat × Nat) :=
  match tokens with
  | [] => []
  | t :: ts =>
    let r := tryFrom rn vocab (t :: ts) (ngram_length + 1)
    match r.1 with
    | some _ => (pos, r.2) ::
        greedy_windows rn vocab ngram_length ((t :: ts).drop r.2) (pos + r.2)
    | none => greedy_windows rn vocab ngram_length ((t :: ts).drop r.2) (pos + r.2)
termination_by tokens.length
decreasing_by
  all_goals
    have h1 := tryFrom_snd_pos rn vocab (t :: ts) (ngram_length + 1)
    simp only [List.length_drop, List.length_cons]
    omega

theorem greedy_windows_nil (rn : String → String) (vocab : Vocab)
    (ngram_length pos : Nat) :
    greedy_windows rn vocab ngram_length [] pos = [] := by
  rw [greedy_windows]

theorem greedy_windows_cons (rn : String → String) (vocab : Vocab)
    (ngram_length : Nat) (t : String) (ts : List String) (pos : Nat) :
    greedy_windows rn vocab ngram_length (t :: ts) pos
    = match (tryFrom rn vocab (t :: ts) (ngram_length + 1)).1 with
      | some _ => (pos, (tryFrom rn vocab (t :: ts) (ngram_length + 1)).2) ::
          greedy_windows rn vocab ngram_length
            ((t :: ts).drop (tryFrom rn vocab (t :: ts) (ngram_length + 1)).2)
            (pos + (tryFrom rn vocab (t :: ts) (ngram_length + 1)).2)
      | none => greedy_windows rn vocab ngram_length
          ((t :: ts).drop (tryFrom rn vocab (t :: ts) (ngram_length + 1)).2)
          (pos + (tryFrom rn vocab (t :: ts) (ngram_length + 1)).2) := by
  rw [greedy_windows]

/-- Every recorded window starts at or after the position the loop entered at. -/
theorem greedy_windows_fst_ge (rn : String → String) (vocab : Vocab)
    (ngram_length : Nat) : ∀ (fuel : Nat) (tokens : List String) (pos : Nat),
    tokens.length ≤ fuel →
    ∀ w ∈ greedy_windows rn vocab ngram_length tokens pos, pos ≤ w.1 := by
  intro fuel
  induction fuel with
  | zero =>
    intro tokens pos h w hw
    cases tokens with
    | nil => rw [greedy_windows_nil] at hw; simp at hw
    | cons a b => simp at h
  | succ j ih =>
    intro tokens pos h w hw
    cases tokens with
    | nil => rw [greedy_windows_nil] at hw; simp at hw
    | cons t ts =>
      rw [greedy_windows_cons] at hw
      have hpos := tryFrom_snd_pos rn vocab (t :: ts) (ngram_length + 1)
      have hlen : ((t :: ts).drop
          (tryFrom rn vocab (t :: ts) (ngram_length + 1)).2).length ≤ j := by
        simp only [List.length_drop, List.length_cons]
        simp only [List.length_cons] at h
        omega
      cases hm : (tryFrom rn vocab (t :: ts) (ngram_length + 1)).1 with
      | none =>
        rw [hm] at hw
        dsimp only at hw
        have := ih _ _ hlen w hw
        omega
      | some c =>
        rw [hm] at hw
        dsimp only at hw
        rcases List.mem_cons.mp hw with heq | hmem
        · subst heq; simp
        · have := ih _ _ hlen w hmem
          omega

/-- The recorded windows are pairwise disjoint: each one ends at or before the
start of every later one. -/
theorem greedy_windows_pairwise (rn : String → String) (vocab : Vocab)
    (ngram_length : Nat) : ∀ (fuel : Nat) (tokens : List String) (pos : Nat),
    tokens.length ≤ fuel →
    List.Pairwise (fun w₁ w₂ : Nat × Nat => w₁.1 + w₁.2 ≤ w₂.1)
      (greedy_windows rn vocab ngram_length tokens pos) := by
  intro fuel
  induction fuel with
  | zero =>
    intro tokens pos h
    cases tokens with
    | nil => rw [greedy_windows_nil]; exact List.Pairwise.nil
    | cons a b => simp at h
  | succ j ih =>
    intro tokens pos h
    cases tokens with
    | nil => rw [greedy_windows_nil]; exact List.Pairwise.nil
    | cons t ts =>
      rw [greedy_windows_cons]
      have hpos := tryFrom_snd_pos rn vocab (t :: ts) (ngram_length + 1)
      have hlen : ((t :: ts).drop
          (tryFrom rn vocab (t :: ts) (ngram_length + 1)).2).length ≤ j := by
        simp only [List.length_drop, List.length_cons]
        simp only [List.length_cons] at h
        omega
      cases hm : (tryFrom rn vocab (t :: ts) (ngram_length + 1)).1 with
      | none =>
        dsimp only
        exact ih _ _ hlen
      | some c =>
        dsimp only
        refine List.Pairwise.cons ?_ (ih _ _ hlen)
        intro w hw
        have := greedy_windows_fst_ge rn vocab ngram_length j _ _ hlen w hw
        simp only
        omega

/-- The emitted concepts are exactly the joined+normalized slices of the
original token list at the recorded windows. -/
theorem greedy_windows_map (rn : String → String) (vocab : Vocab)
    (ngram_length : Nat) : ∀ (fuel : Nat) (full : List String) (pos : Nat),
    (full.drop pos).length ≤ fuel →
    greedy_loop rn vocab ngram_length (full.drop pos) []
    = (greedy_windows rn vocab ngram_length (full.drop pos) pos).map
        (fun w => rn (String.intercalate "_" ((full.drop w.1).take w.2))) := by
  intro fuel
  induction fuel with
  | zero =>
    intro full pos h
    cases hd : full.drop pos with
    | nil => rw [greedy_loop_nil, greedy_windows_nil]; rfl
    | cons a b => rw [hd] at h; simp at h
  | succ j ih =>
    intro full pos h
    cases hd : full.drop pos with
    | nil => rw [greedy_loop_nil, greedy_windows_nil]; rfl
    | cons t ts =>
      rw [hd] at h
      rw [greedy_loop_cons, greedy_windows_cons]
      have hpos := tryFrom_snd_pos rn vocab (t :: ts) (ngram_length + 1)
      have hdrop : (t :: ts).drop (tryFrom rn vocab (t :: ts) (ngram_length + 1)).2
          = full.drop (pos + (tryFrom rn vocab (t :: ts) (ngram_length + 1)).2) := by
        rw [← hd, List.drop_drop]
      have hlen : (full.drop
          (pos + (tryFrom rn vocab (t :: ts) (ngram_length + 1)).2)).length ≤ j := by
        rw [← hdrop]
        simp only [List.length_drop, List.length_cons]
        simp only [List.length_cons] at h
        omega
      cases hm : tryFrom rn vocab (t :: ts) (ngram_length + 1) with
      | mk o adv =>
        cases o with
        | none =>
          dsimp only
          rw [hm] at hdrop hlen
          dsimp only at hdrop hlen
          rw [hdrop]
          exact ih full _ hlen
        | some c =>
          dsimp only
          rw [hm] at hdrop hlen
          dsimp only at hdrop hlen
          obtain ⟨h1, h2, h3, h4, h5⟩ :=
            (tryFrom_spec rn vocab (t :: ts) (ngram_length + 1)).1 c adv hm
          rw [greedy_loop_out rn vocab ngram_length
            ((t :: ts).drop adv).length _ _ (le_refl _)]
          rw [hdrop, ih full _ hlen]
          simp only [List.map_cons, List.nil_append]
          rw [h4, ← hd]
          rfl

/-- C8: greedy extraction terminates because the cursor strictly advances on
every iteration of its loop, and no two emitted concepts come from overlapping
token windows: the recorded windows are pairwise disjoint and enumerate the
emitted concepts exactly. -/
theorem c8_greedy_terminates_nonoverlap (rn : String → String)
    (tokens : List String) (vocab : Vocab) (ngram_length : Nat) :
    (tokens ≠ [] →
      (tokens.drop (tryFrom rn vocab tokens (ngram_length + 1)).2).length
        < tokens.length)
    ∧ List.Pairwise (fun w₁ w₂ : Nat × Nat => w₁.1 + w₁.2 ≤ w₂.1)
        (greedy_windows rn vocab ngram_length tokens 0)
    ∧ greedy_extraction rn tokens vocab ngram_length
        = (greedy_windows rn vocab ngram_length tokens 0).map
            (fun w => rn (String.intercalate "_" ((tokens.drop w.1).take w.2))) := by
  refine ⟨?_, ?_, ?_⟩
  · intro hne
    have hpos := tryFrom_snd_pos rn vocab tokens (ngram_length + 1)
    have : tokens.length ≠ 0 := by
      intro h0
      exact hne (List.length_eq_zero.mp h0)
    simp only [List.length_drop]
    omega
  · exact greedy_windows_pairwise rn vocab ngram_length tokens.length tokens 0
      (le_refl _)
  · have := greedy_windows_map rn vocab ngram_length tokens.length tokens 0
      (by simp)
    rw [List.drop_zero] at this
    exact this

/-- Concrete check for C8: on a one-token list the cursor strictly advances. -/
theorem c8_greedy_terminates_nonoverlap_witness :
    ((["dog"] : List String).drop
      (tryFrom id ⟨["dog"]⟩ ["dog"] (3 + 1)).2).length < (["dog"] : List String).length :=
  (c8_greedy_terminates_nonoverlap id ["dog"] ⟨["dog"]⟩ 3).1 (by decide)

/-- Candidate record attached to a node: a knowledge-base URI and the raw
score returned by the index. -/
structure Candidate where
  uri : String
  score : Rat
deriving DecidableEq

/-- A graph node: the `phrase` token list, all other JSON fields (opaque
key/value pairs), and the `candidates` list the linker writes. -/
structure Node where
  phrase : List String
  fields : List (String × String)
  candidates : List Candidate
deriving DecidableEq

/-- An input/output record: the uri-keyed node map (in insertion order) plus
the record's other JSON fields. -/
structure Record where
  nodes : List (String × Node)
  fields : List (String × String)
deriving DecidableEq

/-- Python list indexing `l[i]` with an int index: negative indices count from
the end, out-of-range indices raise IndexError. -/
def pyGet (l : List String) (i : Int) : Except String String :=
  if 0 ≤ i then
    match l.get? i.toNat with
    | some x => .ok x
    | none => .error "IndexError"
  else
    if (-i).toNat ≤ l.length then
      match l.get? (l.length - (-i).toNat) with
      | some x => .ok x
      | none => .error "IndexError"
    else .error "IndexError"

/-- Embeds the `for candidate_id, score in zip(...)` loop of `link` literally,
threading the Python local variable `candidate` (unbound at first, hence the
`Option`): the loop tests `if '#' in candidate` BEFORE `candidate` is assigned
from `vocab.idx_to_word[candidate_id]`, so the first iteration reads an unbound
variable (a NameError) and later iterations would test the previous word. -/
def candidate_loop (vocab : Vocab) :
    Option String → List (Int × Rat) → Except String (List Candidate × Option String)
  | cand, [] => .ok ([], cand)
  | cand, (candidate_id, score) :: rest =>
    match cand with
    | none => .error "NameError"
    | some c =>
      if c.toList.contains '#' then candidate_loop vocab cand rest
      else
        match pyGet vocab.idx_to_word candidate_id with
        | .error e => .error e
        | .ok w =>
          match candidate_loop vocab (some w) rest with
          | .error e => .error e
          | .ok (cs, cand2) =>
            .ok ({ uri := "/c/en/" ++ w, score := score } :: cs, cand2)

/-- Embeds `[vocab.word_to_idx[concept] for concept in concepts]`: a missing
key would raise a KeyError. -/
def lookup_ids (vocab : Vocab) : List String → Except String (List Nat)
  | [] => .ok []
  | c :: cs =>
    match vocab.word_to_idx c with
    | none => .error "KeyError"
    | some i =>
      match lookup_ids vocab cs with
      | .error e => .error e
      | .ok rest => .ok (i :: rest)

/-- External collaborators of the linker: Python's per-token `str.lower`, the
`english_filter` stopword filter, and the FAISS index search (given the matched
concept ids and `num_candidates`, it returns the ranked (id, score) pairs). -/
structure Ctx where
  lower : String → String
  ef : List String → List String
  search : List Nat → Nat → List (Int × Rat)
  vocab : Vocab
  num_candidates : Nat

/-- Embeds the per-node body of the record loop in `link`: filter and
lower-case the phrase, extract concepts with the chosen strategy `xf`, map them
to vocabulary ids, query the index only when at least one concept was
extracted, and run the candidate loop.  Returns the updated node, the threaded
`candidate` variable, and whether an index query was issued. -/
def process_node (ctx : Ctx) (xf : List String → Vocab → List String)
    (node : Node) (cand : Option String) :
    Except String (Node × Option String × Bool) :=
  let tokens := ctx.ef (node.phrase.map ctx.lower)
  let concepts := xf tokens ctx.vocab
  match lookup_ids ctx.vocab concepts with
  | .error e => .error e
  | .ok concept_ids =>
    let qp : List (Int × Rat) × Bool :=
      if concept_ids.length > 0 then (ctx.search concept_ids ctx.num_candidates, true)
      else ([], false)
    match candidate_loop ctx.vocab cand qp.1 with
    | .error e => .error e
    | .ok (cs, cand2) => .ok ({ node with candidates := cs }, cand2, qp.2)

/-- Embeds `for uri, node in instance['nodes'].items()`. -/
def process_nodes (ctx : Ctx) (xf : List String → Vocab → List String) :
    List (String × Node) → Option String →
    Except String (List (String × Node) × Option String)
  | [], cand => .ok ([], cand)
  | (u, n) :: rest, cand =>
    match process_node ctx xf n cand with
    | .error e => .error e
    | .ok (n2, cand2, _) =>
      match process_nodes ctx xf rest cand2 with
      | .error e => .error e
      | .ok (rest2, cand3) => .ok ((u, n2) :: rest2, cand3)

/-- Embeds the per-record body of `link`: process every node, leaving all
record fields other than the nodes' `candidates` untouched. -/
def process_record (ctx : Ctx) (xf : List String → Vocab → List String)
    (r : Record) (cand : Option String) : Except String (Record × Option String) :=
  match process_nodes ctx xf r.nodes cand with
  | .error e => .error e
  | .ok (ns, cand2) => .ok ({ r with nodes := ns }, cand2)

/-- Embeds the record stream loop of `link`: records are processed and written
one per line in input order; an uncaught exception stops the run, leaving the
records written so far. -/
def run_records (ctx : Ctx) (xf : List String → Vocab → List String) :
    List Record → Option String → List Record × Option String
  | [], _ => ([], none)
  | r :: rs, cand =>
    match process_record ctx xf r cand with
    | .error e => ([], some e)
    | .ok (r2, cand2) =>
      let rest := run_records ctx xf rs cand2
      (r2 :: rest.1, rest.2)

/-- Embeds `build_index` of `link.py` (the FAISS index construction itself is
external; only the metric dispatch and its ValueError are modelled). -/
def build_index (metric : String) : Except String Unit :=
  if metric = "cosine" then .ok ()
  else if metric = "l2" then .ok ()
  else .error "ValueError: Bad metric"

/-- Embeds `get_extraction_fn` of `link.py`. -/
def get_extraction_fn (rn : String → String) (extraction_strategy : String)
    (ngram_length : Nat) :
    Except String (List String → Vocab → List String) :=
  if extraction_strategy = "exhaustive" then
    .ok (fun tokens vocab => exhaustive_extraction rn tokens vocab ngram_length)
  else if extraction_strategy = "greedy" then
    .ok (fun tokens vocab => greedy_extraction rn tokens vocab ngram_length)
  else .error "ValueError: Bad extraction strategy"

/-- Observable side effects of a `link` run, in program order. -/
inductive Ev
  | initCache
  | readEmb
  | buildIdx
  | readRec
  | writeRec
deriving DecidableEq

/-- Embeds the `link` entry point: the two asserts on `metric` and
`extraction_strategy` run first, before the cache is initialised, the embedding
file is read, the index is built, or any record is read; the result is paired
with the trace of I/O effects performed. -/
def link (ctx : Ctx) (rn : String → String)
    (metric extraction_strategy : String) (ngram_length : Nat)
    (records : List Record) : Except String (List Record) × List Ev :=
  if metric = "cosine" ∨ metric = "l2" then
    if extraction_strategy = "exhaustive" ∨ extraction_strategy = "greedy" then
      match build_index metric with
      | .error e => (.error e, [Ev.initCache, Ev.readEmb])
      | .ok _ =>
        match get_extraction_fn rn extraction_strategy ngram_length with
        | .error e => (.error e, [Ev.initCache, Ev.readEmb, Ev.buildIdx])
        | .ok xf =>
          let res := run_records ctx xf records none
          ((match res.2 with | some e => .error e | none => .ok res.1),
           [Ev.initCache, Ev.readEmb, Ev.buildIdx]
             ++ res.1.flatMap (fun _ => [Ev.readRec, Ev.writeRec]))
    else (.error "AssertionError: extraction_strategy", [])
  else (.error "AssertionError: metric", [])

/-- One data line of an embedding resource: the word and its float values
(floats modelled as rationals; only their multiplicity matters here). -/
structure EmbLine where
  word : String
  floats : List Rat
deriving DecidableEq

/-- Embeds the assignments `embeddings[i] = embedding` of `read_embedding_file`:
writing row `i` of the zero-initialised matrix for each data line in turn.
NumPy broadcasting accepts a row of exactly D floats or of exactly 1 float
(replicated across the row); any other length raises a ValueError, and a line
index beyond the declared V raises an IndexError.  Running out of lines before
V rows were written is NOT detected. -/
def fillRows (D : Nat) (emb : List (List Rat)) (i : Nat) :
    List EmbLine → Except String (List (List Rat))
  | [] => .ok emb
  | l :: rest =>
    if i < emb.length then
      if l.floats.length = D then
        fillRows D (emb.set i l.floats) (i + 1) rest
      else if l.floats.length = 1 then
        fillRows D (emb.set i (List.replicate D (l.floats.headD 0))) (i + 1) rest
      else .error "ValueError: could not broadcast"
    else .error "IndexError"

/-- Embeds `read_embedding_file` of `link.py` after the header line declared
shape (V, D): the embedding matrix starts as `np.zeros((V, D))`, each data line
appends its word and writes its row, and the `Vocab` is built from the words. -/
def read_embedding_file (V D : Nat) (lines : List EmbLine) :
    Except String (Vocab × List (List Rat)) :=
  match fillRows D (List.replicate V (List.replicate D 0)) 0 lines with
  | .error e => .error e
  | .ok emb => .ok (⟨lines.map (fun l => l.word)⟩, emb)

/-- C3 (defect witness): the candidate loop tests `'#' in candidate` before
`candidate` is ever assigned, so the very first candidate returned by the index
raises a NameError instead of being resolved, checked, and possibly skipped:
with vocabulary ["dog"] and one index hit (id 0, score 1) the loop fails. -/
theorem c3_hash_check_reads_unbound_candidate :
    candidate_loop ⟨["dog"]⟩ none [((0 : Int), (1 : Rat))]
      = .error "NameError" := rfl

/-- C5 (defect witness): for a node whose phrase yields one extracted concept,
the run dies with a NameError in the candidate loop before any candidate record
(with its "/c/en/" uri and raw score) can be attached. -/
theorem c5_candidates_never_attached :
    process_node ⟨id, id, fun _ _ => [((0 : Int), (1 : Rat))], ⟨["dog"]⟩, 1⟩
      (fun t v => exhaustive_extraction id t v 2) ⟨["dog"], [], []⟩ none
      = .error "NameError" := rfl

/-- C4 counterexample: loading does NOT fail when fewer than the declared V
data lines are present (the missing rows stay zero), nor when a data line has
1 float instead of the declared D = 3 (NumPy broadcasts it across the row). -/
theorem c4_counterexample :
    (read_embedding_file 2 2 [⟨"a", [1, 2]⟩]).isOk = true
    ∧ (read_embedding_file 1 3 [⟨"b", [5]⟩]).isOk = true := ⟨rfl, rfl⟩

theorem fillRows_isOk (D : Nat) : ∀ (lines : List EmbLine)
    (emb : List (List Rat)) (i : Nat), i + lines.length ≤ emb.length →
    ((fillRows D emb i lines).isOk = true
      ↔ ∀ l ∈ lines, l.floats.length = D ∨ l.floats.length = 1) := by
  intro lines
  induction lines with
  | nil =>
    intro emb i h
    simp [fillRows, Except.isOk, Except.toBool]
  | cons l rest ih =>
    intro emb i h
    have hi : i < emb.length := by
      simp only [List.length_cons] at h
      omega
    unfold fillRows
    rw [if_pos hi]
    by_cases hD : l.floats.length = D
    · rw [if_pos hD]
      rw [ih (emb.set i l.floats) (i + 1)
        (by simp only [List.length_set]; simp only [List.length_cons] at h; omega)]
      simp [hD]
    · rw [if_neg hD]
      by_cases h1 : l.floats.length = 1
      · rw [if_pos h1]
        rw [ih (emb.set i (List.replicate D (l.floats.headD 0))) (i + 1)
          (by simp only [List.length_set]; simp only [List.length_cons] at h; omega)]
        simp [h1]
      · rw [if_neg h1]
        simp only [Except.isOk, Except.toBool]
        constructor
        · intro hfalse; cases hfalse
        · intro hall
          exact absurd (hall l (List.mem_cons_self l rest)) (by simp [hD, h1])

/-- C4 amended: when at most V data lines are present, loading succeeds if and
only if every data line has either exactly D floats or exactly 1 float (the
latter broadcasts); in particular fewer than V data lines never cause a
failure, the missing rows simply stay zero. -/
theorem c4_amended_malformed_resource (V D : Nat) (lines : List EmbLine)
    (h : lines.length ≤ V) :
    (read_embedding_file V D lines).isOk = true
      ↔ ∀ l ∈ lines, l.floats.length = D ∨ l.floats.length = 1 := by
  have hfill := fillRows_isOk D lines (List.replicate V (List.replicate D 0)) 0
    (by simp [h])
  unfold read_embedding_file
  cases hf : fillRows D (List.replicate V (List.replicate D 0)) 0 lines with
  | error e =>
    rw [hf] at hfill
    simpa using hfill
  | ok emb =>
    rw [hf] at hfill
    simpa using hfill

/-- Concrete check for C4 amended: a file declaring 2 rows but holding a single
well-formed row loads successfully. -/
theorem c4_amended_malformed_resource_witness :
    (read_embedding_file 2 2 [⟨"a", [1, 2]⟩]).isOk = true
      ↔ ∀ l ∈ [(⟨"a", [1, 2]⟩ : EmbLine)],
          l.floats.length = 2 ∨ l.floats.length = 1 :=
  c4_amended_malformed_resource 2 2 [⟨"a", [1, 2]⟩] (by decide)

/-- C6: a node whose filtered, lower-cased phrase yields zero extracted
concepts gets the empty candidates list, and no query is issued to the
similarity index (the query flag is false). -/
theorem c6_zero_concepts_no_query (ctx : Ctx)
    (xf : List String → Vocab → List String) (node : Node) (cand : Option String)
    (h : xf (ctx.ef (node.phrase.map ctx.lower)) ctx.vocab = []) :
    process_node ctx xf node cand
      = .ok ({ node with candidates := [] }, cand, false) := by
  unfold process_node
  dsimp only
  rw [h]
  simp [lookup_ids, candidate_loop]

/-- Concrete check for C6 at an empty phrase under the exhaustive strategy. -/
theorem c6_zero_concepts_no_query_witness :
    process_node ⟨id, id, fun _ _ => [], ⟨[]⟩, 5⟩
      (fun t v => exhaustive_extraction id t v 3) ⟨[], [], []⟩ none
      = .ok (⟨[], [], []⟩, none, false) :=
  c6_zero_concepts_no_query ⟨id, id, fun _ _ => [], ⟨[]⟩, 5⟩
    (fun t v => exhaustive_extraction id t v 3) ⟨[], [], []⟩ none rfl

/-- C7: a metric outside {cosine, l2} or an extraction strategy outside
{exhaustive, greedy} makes `link` fail on its opening asserts: the result is an
error, the effect trace is empty (no cache initialisation, no embedding read,
no index build, no record read or written), and nothing is retried. -/
theorem c7_invalid_config_fails_fast (ctx : Ctx) (rn : String → String)
    (metric extraction_strategy : String) (ngram_length : Nat)
    (records : List Record)
    (h : ¬(metric = "cosine" ∨ metric = "l2")
      ∨ ¬(extraction_strategy = "exhaustive" ∨ extraction_strategy = "greedy")) :
    (link ctx rn metric extraction_strategy ngram_length records).2 = []
    ∧ ∃ e, (link ctx rn metric extraction_strategy ngram_length records).1
        = .error e := by
  unfold link
  by_cases hm : metric = "cosine" ∨ metric = "l2"
  · rcases h with h | h
    · exact absurd hm h
    · rw [if_pos hm, if_neg h]
      exact ⟨rfl, "AssertionError: extraction_strategy", rfl⟩
  · rw [if_neg hm]
    exact ⟨rfl, "AssertionError: metric", rfl⟩

/-- Concrete check for C7 at the invalid metric "dot". -/
theorem c7_invalid_config_fails_fast_witness :
    (link ⟨id, id, fun _ _ => [], ⟨[]⟩, 5⟩ id "dot" "exhaustive" 3 []).2 = []
    ∧ ∃ e, (link ⟨id, id, fun _ _ => [], ⟨[]⟩, 5⟩ id "dot" "exhaustive" 3 []).1
        = .error e :=
  c7_invalid_config_fails_fast ⟨id, id, fun _ _ => [], ⟨[]⟩, 5⟩ id "dot"
    "exhaustive" 3 [] (Or.inl (by decide))

/-- Two node entries agree on the node uri and on every node field other than
`candidates`. -/
def nodeFrame (a b : String × Node) : Prop :=
  a.1 = b.1 ∧ a.2.phrase = b.2.phrase ∧ a.2.fields = b.2.fields

/-- Two records agree on everything except the nodes' `candidates` lists. -/
def recordFrameEq (r r2 : Record) : Prop :=
  r.fields = r2.fields ∧ List.Forall₂ nodeFrame r.nodes r2.nodes

theorem process_node_frame (ctx : Ctx) (xf : List String → Vocab → List String)
    (node : Node) (cand : Option String) (n2 : Node) (cand2 : Option String)
    (q : Bool) (h : process_node ctx xf node cand = .ok (n2, cand2, q)) :
    n2.phrase = node.phrase ∧ n2.fields = node.fields := by
  unfold process_node at h
  dsimp only at h
  split at h
  · simp at h
  · split at h
    · simp at h
    · simp only [Except.ok.injEq, Prod.mk.injEq] at h
      rw [← h.1]
      exact ⟨rfl, rfl⟩

theorem process_nodes_frame (ctx : Ctx) (xf : List String → Vocab → List String) :
    ∀ (ns : List (String × Node)) (cand : Option String)
    (ns2 : List (String × Node)) (cand2 : Option String),
    process_nodes ctx xf ns cand = .ok (ns2, cand2) →
    List.Forall₂ nodeFrame ns ns2 := by
  intro ns
  induction ns with
  | nil =>
    intro cand ns2 cand2 h
    simp only [process_nodes, Except.ok.injEq, Prod.mk.injEq] at h
    rw [← h.1]
    exact List.Forall₂.nil
  | cons p rest ih =>
    intro cand ns2 cand2 h
    obtain ⟨u, n⟩ := p
    unfold process_nodes at h
    split at h
    · simp at h
    · rename_i n2 cand' q heq
      split at h
      · simp at h
      · rename_i rest2 cand'' heq2
        simp only [Except.ok.injEq, Prod.mk.injEq] at h
        rw [← h.1]
        refine List.Forall₂.cons ?_ (ih _ _ _ heq2)
        obtain ⟨h1, h2⟩ := process_node_frame ctx xf n cand n2 cand' q heq
        exact ⟨rfl, h1.symm, h2.symm⟩

theorem process_record_frame (ctx : Ctx) (xf : List String → Vocab → List String)
    (r : Record) (cand : Option String) (r2 : Record) (cand2 : Option String)
    (h : process_record ctx xf r cand = .ok (r2, cand2)) :
    recordFrameEq r r2 := by
  unfold process_record at h
  split at h
  · simp at h
  · rename_i ns cand' heq
    simp only [Except.ok.injEq, Prod.mk.injEq] at h
    rw [← h.1]
    exact ⟨rfl, process_nodes_frame ctx xf r.nodes cand ns cand' heq⟩

theorem run_records_frame (ctx : Ctx) (xf : List String → Vocab → List String) :
    ∀ (records : List Record) (cand : Option String),
    (run_records ctx xf records cand).1.length ≤ records.length
    ∧ ((run_records ctx xf records cand).2 = none →
        (run_records ctx xf records cand).1.length = records.length)
    ∧ List.Forall₂ recordFrameEq
        (records.take (run_records ctx xf records cand).1.length)
        (run_records ctx xf records cand).1 := by
  intro records
  induction records with
  | nil =>
    intro cand
    refine ⟨?_, ?_, ?_⟩ <;> simp [run_records]
  | cons r rs ih =>
    intro cand
    unfold run_records
    cases hp : process_record ctx xf r cand with
    | error e =>
      refine ⟨by simp, ?_, by simp⟩
      intro hnone
      simp at hnone
    | ok v =>
      obtain ⟨r2, cand2⟩ := v
      dsimp only
      obtain ⟨ih1, ih2, ih3⟩ := ih cand2
      refine ⟨?_, ?_, ?_⟩
      · simp only [List.length_cons]
        omega
      · intro hnone
        simp only [List.length_cons]
        rw [ih2 hnone]
      · simp only [List.length_cons, List.take_succ_cons]
        exact List.Forall₂.cons
          (process_record_frame ctx xf r cand r2 cand2 hp) ih3

/-- C9: every written output record preserves, for every node, every node
field other than `candidates` (the uri key, the phrase, and all other fields),
records are written one per line in input order (the k-th written record
corresponds to the k-th input record), and a run that finishes without an
uncaught exception writes exactly one output record per input record. -/
theorem c9_output_preserves_fields (ctx : Ctx)
    (xf : List String → Vocab → List String) (records : List Record) :
    (run_records ctx xf records none).1.length ≤ records.length
    ∧ ((run_records ctx xf records none).2 = none →
        (run_records ctx xf records none).1.length = records.length)
    ∧ List.Forall₂ recordFrameEq
        (records.take (run_records ctx xf records none).1.length)
        (run_records ctx xf records none).1 :=
  run_records_frame ctx xf records none

/-- Concrete check for C9: a one-record input whose node extracts no concepts
is written in full. -/
theorem c9_output_preserves_fields_witness :
    (run_records ⟨id, id, fun _ _ => [], ⟨[]⟩, 5⟩
      (fun t v => exhaustive_extraction id t v 3)
      [⟨[("n1", ⟨[], [("label", "x")], []⟩)], [("id", "r1")]⟩] none).1.length
    = ([⟨[("n1", ⟨[], [("label", "x")], []⟩)], [("id", "r1")]⟩] : List Record).length :=
  (c9_output_preserves_fields ⟨id, id, fun _ _ => [], ⟨[]⟩, 5⟩
    (fun t v => exhaustive_extraction id t v 3)
    [⟨[("n1", ⟨[], [("label", "x")], []⟩)], [("id", "r1")]⟩]).2.1 rfl

end Mowgli
